import Mathlib

/-!
Shallow embedding of the computation core of the crypto-scores repository
(the files crypto_buy_score.py, crypto_buy_score_models_full.py and
crypto_buy_score_models_plus_48h.py), with theorems checking the
natural-language specification against it.

Modelling conventions, used consistently below:
* prices, scores and all floating-point arithmetic are embedded as exact
  rationals;
* timestamps are minutes since the epoch, embedded as integers (in the
  sources they are timezone-aware datetimes at whole-minute resolution);
* a pandas Series is a list of rationals; cells that pandas would hold as
  NaN (unsatisfied rolling windows, diff at row 0) are embedded as Option
  values, and every comparison against none is false, exactly as NaN
  comparisons are in pandas;
* Series.ewm(span=n, adjust=False).mean() is the recurrence y 0 = x 0,
  y t = (1-a) * y (t-1) + a * x t with a = 2/(n+1) (and alpha=a gives that a);
* the data provider (ccxt fetch_ohlcv / fetch_ticker) is an external
  collaborator; it enters the build functions as a function argument whose
  none value models the call raising.
-/

/-- Embeds np.clip(x, lo, hi) and Series.clip(lo, hi): min hi (max lo x). -/
def clipQ (x lo hi : ℚ) : ℚ := min hi (max lo x)

/-- Embeds the arithmetic mean (pandas Series.mean()); 0 on the empty list
(the sources never consume the empty-list value where it matters: they test
emptiness first or the cell is NaN). -/
def meanQ (l : List ℚ) : ℚ := l.sum / l.length

/-- The literal 1e-12 used as epsilon guard throughout the sources. -/
def eps : ℚ := 1 / 10 ^ 12

/-- Tail of the recurrence of Series.ewm(..., adjust=False).mean():
each output is (1-a) * prev + a * x. -/
def ewmGo (a : ℚ) : ℚ → List ℚ → List ℚ
  | _, [] => []
  | prev, x :: xs => ((1 - a) * prev + a * x) :: ewmGo a ((1 - a) * prev + a * x) xs

/-- Embeds Series.ewm(alpha=a, adjust=False).mean(): the first output is the
first input, then the exponential recurrence. -/
def ewmAlpha (a : ℚ) : List ℚ → List ℚ
  | [] => []
  | x :: xs => x :: ewmGo a x xs

/-- Embeds ema(s, n) = s.ewm(span=n, adjust=False).mean(), defined
identically in all three source files (curried with the window first).
span = n means alpha = 2/(n+1). -/
def ema (n : ℕ) (s : List ℚ) : List ℚ := ewmAlpha (2 / ((n : ℚ) + 1)) s

/-- Embeds s.diff() without its leading NaN row: element t is s (t+1) - s t. -/
def diffs (s : List ℚ) : List ℚ := List.zipWith (· - ·) (s.drop 1) s

/-- Embeds pandas Series.quantile(q) (default linear interpolation on the
sorted values): with h = q * (n-1), the result is
s ⌊h⌋ + (h - ⌊h⌋) * (s (⌊h⌋+1) - s ⌊h⌋); 0 on an empty series (pandas would
give NaN there, and the sources never use that value). -/
def quantileQ (l : List ℚ) (q : ℚ) : ℚ :=
  let s := l.insertionSort (· ≤ ·)
  if s.length = 0 then 0
  else
    let h := q * ((s.length : ℚ) - 1)
    let i := ⌊h⌋₊
    let lo := s.getD i 0
    let hi := s.getD (i + 1) lo
    lo + (h - (i : ℚ)) * (hi - lo)

/-- One OHLCV row; ts is epoch minutes, volume is optional so that the NaN
volume of the live-patched row of the full build can be represented. -/
structure Candle where
  ts : ℤ
  o : ℚ
  h : ℚ
  l : ℚ
  c : ℚ
  v : Option ℚ
deriving DecidableEq

/-- The SYMBOLS list, identical in all three source files. -/
def SYMBOLS : List String := ["BTC/USDT", "ETH/USDT", "ONDO/USDT"]

namespace Full
/-! Embedding of crypto_buy_score_models_full.py. -/

/-- One step of smooth() past the first sample: the asymmetric EMA step,
then the rate-limit clip against the previous output, then the clip to
[0, 100].  After every loop iteration of the source the running value prev
equals the output just appended, so the previous output is the loop state. -/
def smoothStep (up down capUp capDn prev x : ℚ) : ℚ :=
  clipQ (clipQ (prev + (if prev < x then up else down) * (x - prev))
      (prev - capDn) (prev + capUp)) 0 100

/-- The first step of smooth(): out is empty, so the rate-limit clip line
is skipped; the running value starts at 0. -/
def smoothStep0 (up down x : ℚ) : ℚ :=
  clipQ ((if 0 < x then up else down) * x) 0 100

/-- The loop of smooth() from the second sample on. -/
def smoothAux (up down capUp capDn : ℚ) : ℚ → List ℚ → List ℚ
  | _, [] => []
  | prev, x :: xs =>
    smoothStep up down capUp capDn prev x ::
      smoothAux up down capUp capDn (smoothStep up down capUp capDn prev x) xs

/-- Embeds smooth(v, up=0.45, down=0.12, cap_up=12, cap_dn=10) of
crypto_buy_score_models_full.py.  The input list is the series after
fillna(0); in this embedding series are total, so fillna is the identity
and the raw list is taken directly. -/
def smooth (up down capUp capDn : ℚ) (v : List ℚ) : List ℚ :=
  match v with
  | [] => []
  | x :: xs => smoothStep0 up down x :: smoothAux up down capUp capDn (smoothStep0 up down x) xs

/-- Embeds floor_to_step(dt, minutes): the minute-of-hour is floored to a
multiple of the step.  For the steps used (15, dividing 60) and nonnegative
epoch minutes this equals global flooring of the epoch-minute count, which
is how it is written here. -/
def floor_to_step (t : ℤ) (minutes : ℤ) : ℤ := t / minutes * minutes

/-- Embeds timeline(hours, step): e = floor_to_step(now, step),
s = e - hours*60, then every instant s, s+step, ..., e.  The source while
loop is embedded as an arithmetic range (step is 15 > 0 at every call). -/
def timeline (now hours step : ℤ) : List ℤ :=
  let e := floor_to_step now step
  let s := e - hours * 60
  (List.range (((e - s) / step).toNat + 1)).map (fun k => s + step * k)

/-- The dict built as idx_map = left-to-right enumeration of labels: lookup
returns the index of the LAST occurrence of the key (later dict insertions
overwrite earlier ones). -/
def idxMapGet (labels : List ℤ) (key : ℤ) : Option ℕ :=
  match labels.reverse.findIdx? (fun l => decide (l = key)) with
  | some j => some (labels.length - 1 - j)
  | none => none

/-- One loop iteration of bin_to_15m for the pair (t, v): map t to a label
index (exact match first, else the timestamp floored to 15 minutes) and
keep the maximum value seen for that bucket. -/
def binStep (labels : List ℤ) (out : List (Option ℚ)) (tv : ℤ × ℚ) :
    List (Option ℚ) :=
  let i? :=
    match idxMapGet labels tv.1 with
    | some i => some i
    | none => idxMapGet labels (floor_to_step tv.1 15)
  match i? with
  | none => out
  | some i =>
    match out.getD i none with
    | none => out.set i (some tv.2)
    | some cur => if cur < tv.2 then out.set i (some tv.2) else out

/-- Embeds bin_to_15m(series_ts, values, labels): starting from the
all-None bucket list, fold binStep over the (timestamp, value) pairs, so
each bucket keeps the MAXIMUM value mapped into it.  The values passed by
build are model outputs, which are never None, so the source test
v is not None is True and values are plain rationals here. -/
def bin_to_15m (seriesTs : List ℤ) (values : List ℚ) (labels : List ℤ) :
    List (Option ℚ) :=
  (seriesTs.zip values).foldl (binStep labels) (List.replicate labels.length none)

/-- The model layer of crypto_buy_score_models_full.py (add_ind and the
four model functions).  They enter build only through the one series each
returns for a frame; their numeric bodies (sigmoids over floats) are
irrelevant to the alignment and error plumbing verified here, so they are
carried as function-valued parameters of the embedding. -/
structure FullModels where
  add_ind : List Candle → List Candle
  model_M1 : List Candle → List ℚ
  model_M2 : List Candle → List ℚ
  model_M4 : List Candle → List ℚ
  model_M5 : List Candle → List ℚ

/-- The scores dict of one symbol of docs/data.json as build fills it. -/
structure Scores where
  M1 : List (Option ℚ)
  M2 : List (Option ℚ)
  M3 : List (Option ℚ)
  M4 : List (Option ℚ)
  M5 : List (Option ℚ)
deriving DecidableEq

/-- One symbol entry of docs/data.json: close, the legacy score (M2), and
the five model series. -/
structure SymbolEntry where
  close : List (Option ℚ)
  score : List (Option ℚ)
  scores : Scores
deriving DecidableEq

/-- The all-null entry the except branch of build writes for a symbol. -/
def nullEntry (n : ℕ) : SymbolEntry :=
  ⟨List.replicate n none, List.replicate n none,
   ⟨List.replicate n none, List.replicate n none, List.replicate n none,
    List.replicate n none, List.replicate n none⟩⟩

/-- Lookup in a dict built by a comprehension over (timestamp, value) pairs:
the LAST pair with the key wins. -/
def dictGet (m : List (ℤ × ℚ)) (k : ℤ) : Option ℚ :=
  (m.reverse.find? (fun p => decide (p.1 = k))).map (·.2)

/-- Embeds the live-point patch of build (lines 126 to 129): append a flat
candle at live_dt when it is past the last fetched timestamp, otherwise
overwrite the OHLC fields of the rows whose timestamp equals live_dt.  On an
empty frame the pandas comparison against the NaT maximum is False and the
row assignment matches nothing, leaving the frame empty. -/
def patchLive (df : List Candle) (liveDt : ℤ) (live : ℚ) : List Candle :=
  match (df.map (·.ts)).max? with
  | some m =>
    if m < liveDt then df ++ [⟨liveDt, live, live, live, live, none⟩]
    else df.map (fun r =>
      if r.ts = liveDt then { r with o := live, h := live, l := live, c := live } else r)
  | none => df

/-- The body of the per-symbol try of build (lines 117 to 157), with its
except branch (lines 158 to 164).  The exceptions that can escape the body
come from the external provider: the main fetch raising (df? = none) or the
live price being unobtainable (ticker raised or returned no price, and the
frame is empty so iloc[-1] raises); both give the all-null entry.  The inner
try around the 5-minute block is the match on df5?: its failure only nulls
M3.  ticker? models float(tkr.get("last") or tkr.get("close")): some p when
the call succeeded with a truthy price. -/
def perSymbol (M : FullModels) (labels : List ℤ)
    (df? df5? : Option (List Candle)) (ticker? : Option ℚ) : SymbolEntry :=
  let n := labels.length
  match df? with
  | none => nullEntry n
  | some df0 =>
    let liveDt := (labels.getLast?).getD 0
    match (match ticker? with
           | some p => some p
           | none => (df0.getLast?).map (fun r : Candle => r.c) : Option ℚ) with
    | none => nullEntry n
    | some live =>
      let df := M.add_ind (patchLive df0 liveDt live)
      let m1 := M.model_M1 df
      let m2 := M.model_M2 df
      let m4 := M.model_M4 df
      let m5 := M.model_M5 df
      let m3 : List (Option ℚ) :=
        match df5? with
        | none => List.replicate n none
        | some df5raw =>
          let df5 := M.add_ind df5raw
          bin_to_15m (df5.map (·.ts)) (M.model_M2 df5) labels
      let tsList := df.map (fun r : Candle => r.ts)
      let align := fun (arr : List ℚ) => labels.map (dictGet (tsList.zip arr))
      let price := labels.map (dictGet (df.map (fun r : Candle => (r.ts, r.c))))
      ⟨price, align m2, ⟨align m1, align m2, m3, align m4, align m5⟩⟩

/-- HOURS = 12 in crypto_buy_score_models_full.py. -/
def HOURS : ℤ := 12

/-- Embeds build() of crypto_buy_score_models_full.py: the master timeline
from the wall clock, then one symbol entry per symbol, each computed inside
its own try/except, so the batch always yields an entry for every symbol. -/
def build (M : FullModels) (now : ℤ)
    (fetch fetch5 : String → Option (List Candle))
    (ticker : String → Option ℚ) : List (String × SymbolEntry) :=
  let labels := timeline now HOURS 15
  SYMBOLS.map (fun sym => (sym, perSymbol M labels (fetch sym) (fetch5 sym) (ticker sym)))

end Full

namespace Plus
/-! Embedding of crypto_buy_score_models_plus_48h.py. -/

/-- Embeds rsi(s, n) of crypto_buy_score_models_plus_48h.py.  Row 0 is the
NaN of s.diff(), so the output there is none; the later rows are
100 - 100/(1+rs) with rs the ratio of the gain and loss EMAs (alpha = 1/n)
with the 1e-12 guard on the denominator.  d.clip(lower=0) is max d 0 and
-(d.clip(upper=0)) is max (-d) 0. -/
def rsi (n : ℚ) (s : List ℚ) : List (Option ℚ) :=
  match s with
  | [] => []
  | _ :: _ =>
    let d := diffs s
    let up := ewmAlpha (1 / n) (d.map (fun x => max x 0))
    let dn := ewmAlpha (1 / n) (d.map (fun x => max (-x) 0))
    none :: List.zipWith (fun u l => some (100 - 100 / (1 + u / (l + eps)))) up dn

/-- Embeds the macd_line of macd(s, fast, slow, sig). -/
def macdLine (fast slow : ℕ) (s : List ℚ) : List ℚ :=
  List.zipWith (· - ·) (ema fast s) (ema slow s)

/-- Embeds the signal line of macd: macd_line.ewm(span=sig).mean(). -/
def macdSignal (fast slow sig : ℕ) (s : List ℚ) : List ℚ :=
  ema sig (macdLine fast slow s)

/-- Embeds the histogram of macd: macd_line - signal. -/
def macdHist (fast slow sig : ℕ) (s : List ℚ) : List ℚ :=
  List.zipWith (· - ·) (macdLine fast slow s) (macdSignal fast slow sig s)

/-- Embeds scale01(x, lo, hi): robust scaling to 0..100, with the 5th and
95th percentiles as default bounds and the 1e-12 guard on the denominator;
the output is clip((x-lo)/(hi-lo+eps), 0, 1) * 100. -/
def scale01 (x : List ℚ) (lo? hi? : Option ℚ) : List ℚ :=
  let lo := lo?.getD (quantileQ x (1 / 20))
  let hi := hi?.getD (quantileQ x (19 / 20))
  x.map (fun v => clipQ ((v - lo) / (hi - lo + eps)) 0 1 * 100)

/-- The window of Series.rolling(n) ending at row i: rows i+1-n to i. -/
def rollWin (n : ℕ) (s : List ℚ) (i : ℕ) : List ℚ := (s.drop (i + 1 - n)).take n

/-- Embeds Series.rolling(n).mean() at row i; none (NaN) until the window
is full. -/
def rollMean (n : ℕ) (s : List ℚ) (i : ℕ) : Option ℚ :=
  if n ≤ i + 1 ∧ i < s.length then some (meanQ (rollWin n s i)) else none

/-- The square of Series.rolling(n).std(ddof=0) at row i: the population
variance of the window (kept squared so it stays rational). -/
def rollVar (n : ℕ) (s : List ℚ) (i : ℕ) : Option ℚ :=
  (rollMean n s i).map (fun m => meanQ ((rollWin n s i).map (fun x => (x - m) ^ 2)))

/-- The condition close <= lo of m1_baseline, where lo is the lower
Bollinger band mid - 2*std of bollinger(close, 20, 2.0).  std is the square
root of the rolling population variance, which is irrational, so the
comparison is embedded by the equivalent rational test
mid - close >= 0 and (mid - close)^2 >= 4*var (both sides of
mid - close >= 2*sqrt(var) are then nonnegative).  Rows with an unfilled
20-window have lo = NaN and the pandas comparison is False. -/
def bbTouch (s : List ℚ) (i : ℕ) : Bool :=
  match rollMean 20 s i, rollVar 20 s i with
  | some m, some v =>
    decide (0 ≤ m - s.getD i 0) && decide (4 * v ≤ (m - s.getD i 0) ^ 2)
  | _, _ => false

/-- Embeds m1_baseline(df) on the close column (the only column it reads).
The score is 80 where ema20 > ema50, the close touches the lower Bollinger
band, rsi < 35, and the MACD histogram rises while still negative; it is
raised to 90 where additionally rsi < 30; otherwise 0.  Comparisons against
NaN cells (rsi row 0, h.diff() row 0, unfilled Bollinger windows) are
False, as in pandas. -/
def m1_baseline (close : List ℚ) : List ℚ :=
  let e20 := ema 20 close
  let e50 := ema 50 close
  let r := rsi 14 close
  let h := macdHist 12 26 9 close
  (List.range close.length).map (fun i =>
    let uptrend := decide (e50.getD i 0 < e20.getD i 0)
    let touch := bbTouch close i
    let rlow := match r.getD i none with
      | some rv => decide (rv < 35)
      | none => false
    let hrising := match i with
      | 0 => false
      | j + 1 => decide (h.getD j 0 < h.getD (j + 1) 0)
    let mturn := hrising && decide (h.getD i 0 < 0)
    if uptrend && touch && rlow && mturn then
      (match r.getD i none with
       | some rv => if rv < 30 then (90 : ℚ) else 80
       | none => 80)
    else 0)

/-- The last k elements of a list (DataFrame.tail(k)). -/
def lastN (k : ℕ) (l : List (ℤ × ℚ)) : List (ℤ × ℚ) := l.drop (l.length - k)

/-- Embeds collapse_fast_to_main(df_fast, labels_main): for each master
label t, f.loc[:t].tail(3) of the lead column is averaged, NaN (none) when
no row has timestamp at most t.  df_fast is embedded as its (ts, lead)
pairs; .loc[:t] on the ascending DatetimeIndex is the filter ts <= t. -/
def collapse_fast_to_main (fast : List (ℤ × ℚ)) (labelsMain : List ℤ) :
    List (Option ℚ) :=
  labelsMain.map (fun t =>
    let m := lastN 3 (fast.filter (fun p => decide (p.1 ≤ t)))
    if m.isEmpty then none else some (meanQ (m.map (·.2))))

/-- Embeds m10_meta(df, m2, m3, m4, m6, m8) =
ema(0.25*m2 + 0.10*m3 + 0.25*m4 + 0.20*m6 + 0.20*m8, 3).clip(0, 100).
The df argument is unused in the source too.  The five series share one
RangeIndex in build, so the pandas elementwise sum is zipWith. -/
def m10_meta (m2 m3 m4 m6 m8 : List ℚ) : List ℚ :=
  let meta :=
    List.zipWith (· + ·)
      (List.zipWith (· + ·)
        (List.zipWith (· + ·)
          (List.zipWith (· + ·)
            (m2.map (fun x => (0.25 : ℚ) * x)) (m3.map (fun x => (0.10 : ℚ) * x)))
          (m4.map (fun x => (0.25 : ℚ) * x)))
        (m6.map (fun x => (0.20 : ℚ) * x)))
      (m8.map (fun x => (0.20 : ℚ) * x))
  (ema 3 meta).map (fun y => clipQ y 0 100)

/-- The model functions m2..m9 of crypto_buy_score_models_plus_48h.py.
They enter build only through the series each returns; their numeric bodies
are irrelevant to the claims about the build plumbing, so they are carried
as parameters (m1_baseline and m10_meta, which the claims do inspect, are
embedded concretely above). -/
structure PlusModels where
  m2_zpullback : List Candle → List ℚ
  m3_fast_lead : List Candle → List Candle → List ℚ
  m4_macd_turn : List Candle → List ℚ
  m5_squeeze : List Candle → List ℚ
  m6_pullback_uptrend : List Candle → List ℚ
  m7_vwap_pull : List Candle → List ℚ
  m8_roc_trough : List Candle → List ℚ
  m9_stoch_rsi : List Candle → List ℚ

/-- The models dict of one symbol of docs/data.json as the plus-48h build
fills it; every series is total (fillna(0) is applied, and the embedded
series are total rationals already). -/
structure Scores48 where
  M1 : List ℚ
  M2 : List ℚ
  M3 : List ℚ
  M4 : List ℚ
  M5 : List ℚ
  M6 : List ℚ
  M7 : List ℚ
  M8 : List ℚ
  M9 : List ℚ
  M10 : List ℚ
deriving DecidableEq

/-- The output dict of the plus-48h build: labels, per-symbol closes and
per-symbol model series. -/
structure Out48 where
  labels : List ℤ
  closes : List (String × List ℚ)
  models : List (String × Scores48)
deriving DecidableEq

/-- The per-symbol loop of the plus-48h build.  There is NO try/except
around the loop body: a provider failure on either fetch raises out of
build, which is modelled by the whole result being none.  labels are taken
from the first fetched frame (if not out["labels"]). -/
def buildGo (P : PlusModels) (fetch fetch5 : String → Option (List Candle)) :
    List String → List ℤ → List (String × List ℚ) → List (String × Scores48) →
      Option Out48
  | [], labels, closes, models => some ⟨labels, closes, models⟩
  | sym :: rest, labels, closes, models =>
    match fetch sym with
    | none => none
    | some df =>
      let closes2 := closes ++ [(sym, df.map (fun r : Candle => r.c))]
      let labels2 := if labels.isEmpty then df.map (fun r : Candle => r.ts) else labels
      match fetch5 sym with
      | none => none
      | some dfFast =>
        let m1 := m1_baseline (df.map (fun r : Candle => r.c))
        let m2 := P.m2_zpullback df
        let m4s := P.m4_macd_turn df
        let m5s := P.m5_squeeze df
        let m6s := P.m6_pullback_uptrend df
        let m7s := P.m7_vwap_pull df
        let m8s := P.m8_roc_trough df
        let m9s := P.m9_stoch_rsi df
        let m3s := P.m3_fast_lead df dfFast
        let m10s := m10_meta m2 m3s m4s m6s m8s
        buildGo P fetch fetch5 rest labels2 closes2
          (models ++ [(sym, ⟨m1, m2, m3s, m4s, m5s, m6s, m7s, m8s, m9s, m10s⟩)])

/-- Embeds build() of crypto_buy_score_models_plus_48h.py. -/
def build (P : PlusModels) (fetch fetch5 : String → Option (List Candle)) :
    Option Out48 :=
  buildGo P fetch fetch5 SYMBOLS [] [] []

end Plus

namespace BuyScore
/-! Embedding of crypto_buy_score.py (only its rsi differs from the plus-48h
indicator layer in a way a claim depends on). -/

/-- Embeds rsi(series, length) of crypto_buy_score.py.  Unlike the plus-48h
rsi, the np.where calls turn the leading NaN of series.diff() into 0.0
(NaN > 0 and NaN < 0 are both False), so row 0 of gain and loss is 0 and
the output has no NaN at all. -/
def rsi (length : ℚ) (s : List ℚ) : List ℚ :=
  match s with
  | [] => []
  | _ :: _ =>
    let d := diffs s
    let gain := 0 :: d.map (fun x => if 0 < x then x else 0)
    let loss := 0 :: d.map (fun x => if x < 0 then -x else 0)
    List.zipWith (fun u l => 100 - 100 / (1 + u / (l + eps)))
      (ewmAlpha (1 / length) gain) (ewmAlpha (1 / length) loss)

end BuyScore

/-! ## Helper lemmas -/

theorem ewmGo_one (p : ℚ) (xs : List ℚ) : ewmGo 1 p xs = xs := by
  induction xs generalizing p with
  | nil => rfl
  | cons x xs ih => simp [ewmGo, ih]

theorem ewmAlpha_one (xs : List ℚ) : ewmAlpha 1 xs = xs := by
  cases xs with
  | nil => rfl
  | cons x xs => simp [ewmAlpha, ewmGo_one]

theorem clipQ_nonneg (x hi : ℚ) (h : 0 ≤ hi) : 0 ≤ clipQ x 0 hi := by
  unfold clipQ
  exact le_min h (le_max_left 0 x)

theorem clipQ_le (x lo hi : ℚ) : clipQ x lo hi ≤ hi := min_le_left _ _

/-- The weighted sum list inside m10_meta, as a zipWith tower. -/
def metaZip (m2 m3 m4 m6 m8 : List ℚ) : List ℚ :=
  List.zipWith (· + ·)
    (List.zipWith (· + ·)
      (List.zipWith (· + ·)
        (List.zipWith (· + ·)
          (m2.map (fun x => (0.25 : ℚ) * x)) (m3.map (fun x => (0.10 : ℚ) * x)))
        (m4.map (fun x => (0.25 : ℚ) * x)))
      (m6.map (fun x => (0.20 : ℚ) * x)))
    (m8.map (fun x => (0.20 : ℚ) * x))

/-- The per-bucket fixed-weight blend exactly as section 4.6 of the spec
words it: bucket i of the blend is the weighted sum of bucket i of the five
already-aligned model series, with the documented weight vector
0.25/0.10/0.25/0.20/0.20 in model order 2, 3, 4, 6, 8. -/
def specMetaBlend (m2 m3 m4 m6 m8 : List ℚ) : List ℚ :=
  (List.range (min (min (min (min m2.length m3.length) m4.length) m6.length) m8.length)).map
    (fun i => (1 / 4) * m2.getD i 0 + (1 / 10) * m3.getD i 0 + (1 / 4) * m4.getD i 0 +
      (1 / 5) * m6.getD i 0 + (1 / 5) * m8.getD i 0)

theorem metaZip_length (m2 m3 m4 m6 m8 : List ℚ) :
    (metaZip m2 m3 m4 m6 m8).length =
      min (min (min (min m2.length m3.length) m4.length) m6.length) m8.length := by
  simp [metaZip, List.length_zipWith]

theorem metaZip_eq_specMetaBlend (m2 m3 m4 m6 m8 : List ℚ) :
    metaZip m2 m3 m4 m6 m8 = specMetaBlend m2 m3 m4 m6 m8 := by
  have hspec : (specMetaBlend m2 m3 m4 m6 m8).length =
      min (min (min (min m2.length m3.length) m4.length) m6.length) m8.length := by
    simp [specMetaBlend]
  apply List.ext_getElem?
  intro n
  by_cases hn : n < (metaZip m2 m3 m4 m6 m8).length
  · have hmin : n < min (min (min (min m2.length m3.length) m4.length) m6.length) m8.length :=
      (metaZip_length m2 m3 m4 m6 m8) ▸ hn
    have hn2 : n < (specMetaBlend m2 m3 m4 m6 m8).length := by rw [hspec]; exact hmin
    have h2 : n < m2.length := lt_of_lt_of_le hmin (by
      exact le_trans inf_le_left (le_trans inf_le_left (le_trans inf_le_left inf_le_left)))
    have h3 : n < m3.length := lt_of_lt_of_le hmin (by
      exact le_trans inf_le_left (le_trans inf_le_left (le_trans inf_le_left inf_le_right)))
    have h4 : n < m4.length := lt_of_lt_of_le hmin (by
      exact le_trans inf_le_left (le_trans inf_le_left inf_le_right))
    have h6 : n < m6.length := lt_of_lt_of_le hmin (le_trans inf_le_left inf_le_right)
    have h8 : n < m8.length := lt_of_lt_of_le hmin inf_le_right
    rw [List.getElem?_eq_getElem hn, List.getElem?_eq_getElem hn2]
    simp only [metaZip, specMetaBlend, List.getElem_zipWith, List.getElem_map,
      List.getElem_range, List.getD_eq_getElem _ _ h2, List.getD_eq_getElem _ _ h3,
      List.getD_eq_getElem _ _ h4, List.getD_eq_getElem _ _ h6, List.getD_eq_getElem _ _ h8]
    norm_num
  · have h1 : (metaZip m2 m3 m4 m6 m8).length ≤ n := le_of_not_lt hn
    have h2 : (specMetaBlend m2 m3 m4 m6 m8).length ≤ n := by
      rw [hspec, ← metaZip_length m2 m3 m4 m6 m8]; exact h1
    rw [List.getElem?_eq_none h1, List.getElem?_eq_none h2]

theorem sorted_getD_mono {s : List ℚ} (hs : List.Sorted (· ≤ ·) s) {a b : ℕ}
    (hab : a ≤ b) (hb : b < s.length) : s.getD a 0 ≤ s.getD b 0 := by
  have ha : a < s.length := lt_of_le_of_lt hab hb
  rw [List.getD_eq_getElem _ _ ha, List.getD_eq_getElem _ _ hb]
  rcases eq_or_lt_of_le hab with h | h
  · subst h
    exact le_rfl
  · exact (List.pairwise_iff_getElem.mp hs) a b ha hb h

/-- The linear-interpolation quantile is monotone in the probability level:
the 95th percentile is at least the 5th. -/
theorem quantileQ_mono (l : List ℚ) {q q' : ℚ} (hq0 : 0 ≤ q) (hqq : q ≤ q')
    (hq1 : q' ≤ 1) : quantileQ l q ≤ quantileQ l q' := by
  unfold quantileQ
  have hsort : List.Sorted (· ≤ ·) (l.insertionSort (· ≤ ·)) :=
    List.sorted_insertionSort _ l
  set s := l.insertionSort (· ≤ ·) with hsdef
  by_cases h0 : s.length = 0
  · simp [h0]
  · simp only [h0, if_false]
    have hn1 : 1 ≤ s.length := Nat.one_le_iff_ne_zero.mpr h0
    have hnn : (0 : ℚ) ≤ (s.length : ℚ) - 1 := by
      have : (1 : ℚ) ≤ (s.length : ℚ) := by exact_mod_cast hn1
      linarith
    set h := q * ((s.length : ℚ) - 1) with hdef
    set h' := q' * ((s.length : ℚ) - 1) with h'def
    have hh0 : 0 ≤ h := mul_nonneg hq0 hnn
    have hh0' : 0 ≤ h' := mul_nonneg (le_trans hq0 hqq) hnn
    have hhh : h ≤ h' := mul_le_mul_of_nonneg_right hqq hnn
    have hh1 : h' ≤ (s.length : ℚ) - 1 := by
      have := mul_le_mul_of_nonneg_right hq1 hnn
      simpa using this
    have hii : ⌊h⌋₊ ≤ ⌊h'⌋₊ := Nat.floor_mono hhh
    have hi'n : ⌊h'⌋₊ ≤ s.length - 1 := by
      have hcast : ((s.length - 1 : ℕ) : ℚ) = (s.length : ℚ) - 1 :=
        Nat.cast_sub hn1
      have := Nat.floor_mono (le_trans hh1 (le_of_eq hcast.symm))
      simpa [Nat.floor_natCast] using this
    have hi'lt : ⌊h'⌋₊ < s.length := by omega
    have hilt : ⌊h⌋₊ < s.length := by omega
    have hle_lo : (⌊h⌋₊ : ℚ) ≤ h := Nat.floor_le hh0
    have hlt_hi : h < (⌊h⌋₊ : ℚ) + 1 := Nat.lt_floor_add_one h
    have hle_lo' : (⌊h'⌋₊ : ℚ) ≤ h' := Nat.floor_le hh0'
    -- lo ≤ hi bound for an arbitrary floor index below the length
    have key : ∀ (k : ℕ), k < s.length →
        s.getD k 0 ≤ s.getD (k + 1) (s.getD k 0) := by
      intro k hk
      by_cases hk1 : k + 1 < s.length
      · rw [List.getD_eq_getElem _ _ hk1]
        have := sorted_getD_mono hsort (Nat.le_succ k) hk1
        rw [List.getD_eq_getElem _ _ hk1] at this
        exact this
      · exact le_of_eq (List.getD_eq_default _ _ (by omega : s.length ≤ k + 1)).symm
    rcases eq_or_lt_of_le hii with heq | hlt
    · -- same interpolation cell
      rw [← heq]
      have hd : 0 ≤ s.getD (⌊h⌋₊ + 1) (s.getD ⌊h⌋₊ 0) - s.getD ⌊h⌋₊ 0 :=
        sub_nonneg.mpr (key _ hilt)
      have : (h - (⌊h⌋₊ : ℚ)) * (s.getD (⌊h⌋₊ + 1) (s.getD ⌊h⌋₊ 0) - s.getD ⌊h⌋₊ 0) ≤
          (h' - (⌊h⌋₊ : ℚ)) * (s.getD (⌊h⌋₊ + 1) (s.getD ⌊h⌋₊ 0) - s.getD ⌊h⌋₊ 0) :=
        mul_le_mul_of_nonneg_right (by linarith) hd
      linarith
    · -- the level q lands strictly below the cell of q'
      have hfloor1 : ⌊h⌋₊ + 1 < s.length := by omega
      have hup : s.getD (⌊h⌋₊ + 1) (s.getD ⌊h⌋₊ 0) = s.getD (⌊h⌋₊ + 1) 0 := by
        rw [List.getD_eq_getElem _ _ hfloor1, List.getD_eq_getElem _ _ hfloor1]
      have hlo_le : s.getD ⌊h⌋₊ 0 ≤ s.getD (⌊h⌋₊ + 1) 0 :=
        sorted_getD_mono hsort (Nat.le_succ _) hfloor1
      have hstep1 : s.getD ⌊h⌋₊ 0 + (h - (⌊h⌋₊ : ℚ)) *
            (s.getD (⌊h⌋₊ + 1) (s.getD ⌊h⌋₊ 0) - s.getD ⌊h⌋₊ 0) ≤
          s.getD (⌊h⌋₊ + 1) 0 := by
      -- value in cell i is at most the right endpoint
        rw [hup]
        have hd : 0 ≤ s.getD (⌊h⌋₊ + 1) 0 - s.getD ⌊h⌋₊ 0 := sub_nonneg.mpr hlo_le
        have hf1 : h - (⌊h⌋₊ : ℚ) ≤ 1 := by linarith
        have := mul_le_mul_of_nonneg_right hf1 hd
        linarith
    -- right endpoint of cell i is at most the left endpoint of cell i'
      have hstep2 : s.getD (⌊h⌋₊ + 1) 0 ≤ s.getD ⌊h'⌋₊ 0 :=
        sorted_getD_mono hsort (by omega) hi'lt
      have hstep3 : s.getD ⌊h'⌋₊ 0 ≤ s.getD ⌊h'⌋₊ 0 + (h' - (⌊h'⌋₊ : ℚ)) *
          (s.getD (⌊h'⌋₊ + 1) (s.getD ⌊h'⌋₊ 0) - s.getD ⌊h'⌋₊ 0) := by
        have hd : 0 ≤ s.getD (⌊h'⌋₊ + 1) (s.getD ⌊h'⌋₊ 0) - s.getD ⌊h'⌋₊ 0 :=
          sub_nonneg.mpr (key _ hi'lt)
        have := mul_nonneg (by linarith : (0 : ℚ) ≤ h' - (⌊h'⌋₊ : ℚ)) hd
        linarith
      linarith

theorem ewmGo_nonneg {a : ℚ} (ha0 : 0 ≤ a) (ha1 : a ≤ 1) :
    ∀ (xs : List ℚ) (p : ℚ), 0 ≤ p → (∀ x ∈ xs, 0 ≤ x) →
      ∀ y ∈ ewmGo a p xs, 0 ≤ y := by
  intro xs
  induction xs with
  | nil =>
    intro p _ _ y hy
    simp [ewmGo] at hy
  | cons x xs ih =>
    intro p hp hxs y hy
    have hx : 0 ≤ x := hxs x (List.mem_cons_self x xs)
    have hnew : 0 ≤ (1 - a) * p + a * x :=
      add_nonneg (mul_nonneg (by linarith) hp) (mul_nonneg ha0 hx)
    simp only [ewmGo, List.mem_cons] at hy
    rcases hy with rfl | hy
    · exact hnew
    · exact ih _ hnew (fun z hz => hxs z (List.mem_cons_of_mem _ hz)) y hy

theorem ewmAlpha_nonneg {a : ℚ} (ha0 : 0 ≤ a) (ha1 : a ≤ 1)
    {xs : List ℚ} (hxs : ∀ x ∈ xs, 0 ≤ x) : ∀ y ∈ ewmAlpha a xs, 0 ≤ y := by
  intro y hy
  cases xs with
  | nil => simp [ewmAlpha] at hy
  | cons x rest =>
    have hx : 0 ≤ x := hxs x (List.mem_cons_self x rest)
    simp only [ewmAlpha, List.mem_cons] at hy
    rcases hy with rfl | hy
    · exact hx
    · exact ewmGo_nonneg ha0 ha1 rest x hx
        (fun z hz => hxs z (List.mem_cons_of_mem _ hz)) y hy

/-- The RSI formula 100 - 100/(1 + u/(l + eps)) with nonnegative gain and
loss averages stays in [0, 100). -/
theorem rsiVal_bounds {u l : ℚ} (hu : 0 ≤ u) (hl : 0 ≤ l) :
    0 ≤ 100 - 100 / (1 + u / (l + eps)) ∧ 100 - 100 / (1 + u / (l + eps)) < 100 := by
  have hepos : (0 : ℚ) < eps := by norm_num [eps]
  have hle : 0 < l + eps := by linarith
  have hrs : 0 ≤ u / (l + eps) := div_nonneg hu hle.le
  have h1 : (0 : ℚ) < 1 + u / (l + eps) := by linarith
  constructor
  · have hb : 100 / (1 + u / (l + eps)) ≤ 100 := by
      rw [div_le_iff h1]
      nlinarith
    linarith
  · have hb : 0 < 100 / (1 + u / (l + eps)) := by positivity
    linarith

theorem mem_zipWith {α β γ : Type} {f : α → β → γ} :
    ∀ {as : List α} {bs : List β} {z : γ}, z ∈ List.zipWith f as bs →
      ∃ a ∈ as, ∃ b ∈ bs, z = f a b := by
  intro as
  induction as with
  | nil =>
    intro bs z h
    simp at h
  | cons a as ih =>
    intro bs z h
    cases bs with
    | nil => simp at h
    | cons b bs =>
      simp only [List.zipWith_cons_cons, List.mem_cons] at h
      rcases h with rfl | h
      · exact ⟨a, List.mem_cons_self a as, b, List.mem_cons_self b bs, rfl⟩
      · obtain ⟨a2, ha, b2, hb, rfl⟩ := ih h
        exact ⟨a2, List.mem_cons_of_mem _ ha, b2, List.mem_cons_of_mem _ hb, rfl⟩

/-- Every defined value of the plus-48h rsi lies in [0, 100), for any
series: the gain and loss EMA inputs are clipped nonnegative, their EMAs
stay nonnegative, and rsiVal_bounds applies. -/
theorem plus_rsi_mem_bounds (n : ℚ) (hn : 1 ≤ n) (xs : List ℚ) :
    ∀ v : ℚ, some v ∈ Plus.rsi n xs → 0 ≤ v ∧ v < 100 := by
  have ha0 : (0 : ℚ) ≤ 1 / n := by positivity
  have ha1 : 1 / n ≤ 1 := by
    rw [div_le_one (by linarith)]
    linarith
  intro v hv
  cases xs with
  | nil => simp [Plus.rsi] at hv
  | cons x rest =>
    simp only [Plus.rsi, List.mem_cons] at hv
    rcases hv with h | hv
    · exact absurd h (by simp)
    · obtain ⟨u, hu, l, hl, heq⟩ := mem_zipWith hv
      have hu0 : 0 ≤ u := by
        refine ewmAlpha_nonneg ha0 ha1 ?_ u hu
        intro y hy
        obtain ⟨w, _, rfl⟩ := List.mem_map.mp hy
        exact le_max_right w 0
      have hl0 : 0 ≤ l := by
        refine ewmAlpha_nonneg ha0 ha1 ?_ l hl
        intro y hy
        obtain ⟨w, _, rfl⟩ := List.mem_map.mp hy
        exact le_max_right (-w) 0
      have hveq : v = 100 - 100 / (1 + u / (l + eps)) := by
        injection heq
      rw [hveq]
      exact rsiVal_bounds hu0 hl0

/-- Every value of the crypto_buy_score rsi lies in [0, 100), for any
series. -/
theorem buyscore_rsi_mem_bounds (n : ℚ) (hn : 1 ≤ n) (xs : List ℚ) :
    ∀ v ∈ BuyScore.rsi n xs, 0 ≤ v ∧ v < 100 := by
  have ha0 : (0 : ℚ) ≤ 1 / n := by positivity
  have ha1 : 1 / n ≤ 1 := by
    rw [div_le_one (by linarith)]
    linarith
  intro v hv
  cases xs with
  | nil => simp [BuyScore.rsi] at hv
  | cons x rest =>
    simp only [BuyScore.rsi] at hv
    obtain ⟨u, hu, l, hl, rfl⟩ := mem_zipWith hv
    have hu0 : 0 ≤ u := by
      refine ewmAlpha_nonneg ha0 ha1 ?_ u hu
      intro y hy
      rcases List.mem_cons.mp hy with rfl | hy
      · exact le_rfl
      · obtain ⟨w, _, rfl⟩ := List.mem_map.mp hy
        split <;> simp_all <;> linarith
    have hl0 : 0 ≤ l := by
      refine ewmAlpha_nonneg ha0 ha1 ?_ l hl
      intro y hy
      rcases List.mem_cons.mp hy with rfl | hy
      · exact le_rfl
      · obtain ⟨w, _, rfl⟩ := List.mem_map.mp hy
        split <;> simp_all <;> linarith
    exact rsiVal_bounds hu0 hl0

theorem smoothAux_length (up down cu cd : ℚ) :
    ∀ (xs : List ℚ) (p : ℚ), (Full.smoothAux up down cu cd p xs).length = xs.length := by
  intro xs
  induction xs with
  | nil => intro p; rfl
  | cons x xs ih =>
    intro p
    simp only [Full.smoothAux, List.length_cons, ih]

theorem smooth_length (up down cu cd : ℚ) (v : List ℚ) :
    (Full.smooth up down cu cd v).length = v.length := by
  cases v with
  | nil => rfl
  | cons x xs => simp [Full.smooth, smoothAux_length]

theorem smoothAux_step (up down cu cd : ℚ) :
    ∀ (xs : List ℚ) (p : ℚ) (i : ℕ) (q x : ℚ),
      (Full.smoothAux up down cu cd p xs)[i]? = some q → xs[i + 1]? = some x →
      (Full.smoothAux up down cu cd p xs)[i + 1]? =
        some (Full.smoothStep up down cu cd q x) := by
  intro xs
  induction xs with
  | nil =>
    intro p i q x hq _
    simp [Full.smoothAux] at hq
  | cons y ys ih =>
    intro p i q x hq hx
    cases i with
    | zero =>
      simp only [Full.smoothAux, List.getElem?_cons_zero, Option.some.injEq] at hq
      subst hq
      cases ys with
      | nil => simp at hx
      | cons z zs =>
        simp only [List.getElem?_cons_succ, List.getElem?_cons_zero,
          Option.some.injEq] at hx
        subst hx
        simp [Full.smoothAux]
    | succ j =>
      simp only [Full.smoothAux, List.getElem?_cons_succ] at hq ⊢
      exact ih _ j q x hq (by simpa using hx)

theorem smooth_head (up down cu cd : ℚ) (v : List ℚ) :
    (Full.smooth up down cu cd v)[0]? = (v[0]?).map (Full.smoothStep0 up down) := by
  cases v with
  | nil => rfl
  | cons x xs => simp [Full.smooth]

theorem smooth_step (up down cu cd : ℚ) (v : List ℚ) (i : ℕ) (p x : ℚ)
    (hp : (Full.smooth up down cu cd v)[i]? = some p) (hx : v[i + 1]? = some x) :
    (Full.smooth up down cu cd v)[i + 1]? =
      some (Full.smoothStep up down cu cd p x) := by
  cases v with
  | nil => simp [Full.smooth] at hp
  | cons y ys =>
    cases i with
    | zero =>
      simp only [Full.smooth, List.getElem?_cons_zero, Option.some.injEq] at hp
      subst hp
      cases ys with
      | nil => simp at hx
      | cons z zs =>
        simp only [List.getElem?_cons_succ, List.getElem?_cons_zero,
          Option.some.injEq] at hx
        subst hx
        simp [Full.smooth, Full.smoothAux]
    | succ j =>
      simp only [Full.smooth, List.getElem?_cons_succ] at hp ⊢
      exact smoothAux_step up down cu cd ys _ j p x hp (by simpa using hx)

theorem sum_lt_of_forall_lt {l : List ℚ} {M : ℚ} (hne : l ≠ [])
    (h : ∀ x ∈ l, x < M) : l.sum < (l.length : ℚ) * M := by
  induction l with
  | nil => exact absurd rfl hne
  | cons x xs ih =>
    cases xs with
    | nil =>
      have hx := h x (List.mem_cons_self x [])
      simp only [List.sum_cons, List.sum_nil, add_zero, List.length_cons,
        List.length_nil]
      push_cast
      linarith
    | cons y ys =>
      have hx := h x (List.mem_cons_self x (y :: ys))
      have hs := ih (by simp) (fun z hz => h z (List.mem_cons_of_mem _ hz))
      simp only [List.sum_cons, List.length_cons] at hs ⊢
      push_cast at hs ⊢
      linarith

/-- On a strictly increasing series, the mean of the full rolling window
ending at row i is strictly below the row-i value (the window maximum). -/
theorem rollWin_mean_lt_last {c : List ℚ} (hmono : c.Pairwise (· < ·)) {i : ℕ}
    (hwin : 20 ≤ i + 1) (hlen : i < c.length) :
    meanQ (Plus.rollWin 20 c i) < c.getD i 0 := by
  set w := Plus.rollWin 20 c i with hw
  have hwlen : w.length = 20 := by
    rw [hw, Plus.rollWin, List.length_take, List.length_drop]
    omega
  have hsub : w.Sublist c := (List.take_sublist _ _).trans (List.drop_sublist _ _)
  have hpw : w.Pairwise (· < ·) := List.Pairwise.sublist hsub hmono
  have hne : w ≠ [] := by
    intro h
    rw [h] at hwlen
    simp at hwlen
  have hlast : w.getLast hne = c.getD i 0 := by
    have hdl : i + 1 - 20 + (min 20 (c.length - (i + 1 - 20)) - 1) = i := by omega
    rw [List.getLast_eq_getElem, List.getD_eq_getElem _ _ hlen]
    simp only [hwlen, hw, Plus.rollWin]
    rw [List.getElem_take, List.getElem_drop]
    simp only [List.length_take, List.length_drop, hdl]
  have hsplit := List.dropLast_append_getLast hne
  have hpw2 : List.Pairwise (· < ·) (w.dropLast ++ [w.getLast hne]) := by
    rw [hsplit]
    exact hpw
  have hforall := (List.pairwise_append.mp hpw2).2.2
  have hdllen : w.dropLast.length = 19 := by
    rw [List.length_dropLast, hwlen]
  have hdlne : w.dropLast ≠ [] := by
    intro h
    rw [h] at hdllen
    simp at hdllen
  have hsum : w.dropLast.sum < (19 : ℚ) * c.getD i 0 := by
    have hall : ∀ x ∈ w.dropLast, x < c.getD i 0 := by
      intro x hx
      have := hforall x hx (w.getLast hne) (List.mem_singleton_self _)
      rwa [hlast] at this
    have := sum_lt_of_forall_lt hdlne hall
    rw [hdllen] at this
    push_cast at this
    exact this
  have hsumw : w.sum = w.dropLast.sum + w.getLast hne := by
    conv_lhs => rw [← hsplit]
    simp [List.sum_append]
  have h20 : (0 : ℚ) < (w.length : ℚ) := by
    rw [hwlen]
    norm_num
  have hsums : w.sum < (w.length : ℚ) * c.getD i 0 := by
    rw [hsumw, hlast, hwlen]
    push_cast
    linarith
  calc meanQ w = w.sum / (w.length : ℚ) := rfl
    _ < c.getD i 0 := by
        rw [div_lt_iff h20]
        linarith

/-- On a strictly increasing close series the lower-Bollinger touch
condition of m1_baseline is false at every row: the close is the window
maximum and strictly exceeds the window mean, while the band sits at or
below the mean. -/
theorem bbTouch_false_of_mono {c : List ℚ} (hmono : c.Pairwise (· < ·))
    (i : ℕ) : Plus.bbTouch c i = false := by
  cases hrm : Plus.rollMean 20 c i with
  | none =>
    have hrv : Plus.rollVar 20 c i = none := by
      rw [Plus.rollVar, hrm]
      rfl
    simp only [Plus.bbTouch, hrm, hrv]
  | some m =>
    have hcond : 20 ≤ i + 1 ∧ i < c.length := by
      by_contra h
      rw [Plus.rollMean, if_neg h] at hrm
      exact absurd hrm (by simp)
    have hm : m = meanQ (Plus.rollWin 20 c i) := by
      have h2 := hrm
      rw [Plus.rollMean, if_pos hcond] at h2
      exact (Option.some.inj h2).symm
    have hlt := rollWin_mean_lt_last hmono hcond.1 hcond.2
    have hrv : Plus.rollVar 20 c i =
        some (meanQ ((Plus.rollWin 20 c i).map (fun x => (x - m) ^ 2))) := by
      rw [Plus.rollVar, hrm]
      rfl
    have hneg : ¬(0 ≤ m - c.getD i 0) := by
      rw [hm]
      linarith
    have hd : decide (0 ≤ m - c.getD i 0) = false := decide_eq_false hneg
    simp only [Plus.bbTouch, hrm, hrv, hd, Bool.false_and]

theorem binStep_length (labels : List ℤ) (out : List (Option ℚ)) (tv : ℤ × ℚ) :
    (Full.binStep labels out tv).length = out.length := by
  rw [Full.binStep]
  split
  · rfl
  · split
    · exact List.length_set out _ _
    · split
      · exact List.length_set out _ _
      · rfl

theorem bin_to_15m_length (seriesTs : List ℤ) (values : List ℚ) (labels : List ℤ) :
    (Full.bin_to_15m seriesTs values labels).length = labels.length := by
  rw [Full.bin_to_15m]
  have hfold : ∀ (pairs : List (ℤ × ℚ)) (acc : List (Option ℚ)),
      (pairs.foldl (Full.binStep labels) acc).length = acc.length := by
    intro pairs
    induction pairs with
    | nil => intro acc; rfl
    | cons p ps ih =>
      intro acc
      rw [List.foldl_cons, ih, binStep_length]
  rw [hfold, List.length_replicate]

/-- A model stub returning the empty series for every frame. -/
def emptyModel : List Candle → List ℚ := fun _ => []

/-- The trivial instantiation of the abstract model layer of the full
build, used by concrete witnesses. -/
def trivialFullModels : Full.FullModels where
  add_ind := id
  model_M1 := emptyModel
  model_M2 := emptyModel
  model_M4 := emptyModel
  model_M5 := emptyModel

/-- The trivial instantiation of the abstract model layer of the plus-48h
build, used by concrete counterexamples. -/
def trivialPlusModels : Plus.PlusModels where
  m2_zpullback := emptyModel
  m3_fast_lead := fun _ _ => []
  m4_macd_turn := emptyModel
  m5_squeeze := emptyModel
  m6_pullback_uptrend := emptyModel
  m7_vwap_pull := emptyModel
  m8_roc_trough := emptyModel
  m9_stoch_rsi := emptyModel

/-- Every series of every entry perSymbol can produce has exactly the label
count as its length, in the all-null branches and the computed branch
alike. -/
theorem perSymbol_lengths (M : Full.FullModels) (labels : List ℤ)
    (df? df5? : Option (List Candle)) (ticker? : Option ℚ) :
    (Full.perSymbol M labels df? df5? ticker?).close.length = labels.length ∧
    (Full.perSymbol M labels df? df5? ticker?).score.length = labels.length ∧
    (Full.perSymbol M labels df? df5? ticker?).scores.M1.length = labels.length ∧
    (Full.perSymbol M labels df? df5? ticker?).scores.M2.length = labels.length ∧
    (Full.perSymbol M labels df? df5? ticker?).scores.M3.length = labels.length ∧
    (Full.perSymbol M labels df? df5? ticker?).scores.M4.length = labels.length ∧
    (Full.perSymbol M labels df? df5? ticker?).scores.M5.length = labels.length := by
  cases df? with
  | none => simp [Full.perSymbol, Full.nullEntry]
  | some df0 =>
    simp only [Full.perSymbol]
    cases hlive : (match ticker? with
      | some p => some p
      | none => (df0.getLast?).map (fun r : Candle => r.c) : Option ℚ) with
    | none => simp [Full.nullEntry]
    | some live =>
      cases df5? with
      | none => simp
      | some df5raw => simp [bin_to_15m_length]

/-- For a symbol of the list, the entry the full build writes is exactly
perSymbol of that symbol's own provider results. -/
theorem build_full_lookup (M : Full.FullModels) (now : ℤ)
    (fetch fetch5 : String → Option (List Candle)) (ticker : String → Option ℚ)
    (sym : String) (hsym : sym ∈ SYMBOLS) :
    List.lookup sym (Full.build M now fetch fetch5 ticker) =
      some (Full.perSymbol M (Full.timeline now Full.HOURS 15) (fetch sym)
        (fetch5 sym) (ticker sym)) := by
  fin_cases hsym
  all_goals simp [Full.build, SYMBOLS, List.lookup]

/-! ## Claim theorems -/

/-- C9: ema with span 1 returns the input series unchanged (its smoothing
constant is alpha = 2/(1+1) = 1), and for every span the first output value
of ema equals the first input value. -/
theorem ema_span_one_id_and_first :
    (∀ s : List ℚ, ema 1 s = s) ∧
    (∀ (n : ℕ) (x : ℚ) (s : List ℚ), (ema n (x :: s)).head? = some x) := by
  constructor
  · intro s
    have ha : (2 : ℚ) / (((1 : ℕ) : ℚ) + 1) = 1 := by norm_num
    rw [ema, ha, ewmAlpha_one]
  · intro n x s
    rfl

/-- C10: the first output sample of smooth is not rate-limit clipped: it is
clip(rate * x0, 0, 100) with rate = up_rate if x0 > 0 (the running value
starts at 0) else down_rate; with the default parameters
(up=0.45, cap_up=12) the first output of the series [100] is 45, above
cap_up, so the rate-limit clip provably applies only from the second sample
onward. -/
theorem smooth_first_sample_unclipped :
    (∀ (up down capUp capDn x0 : ℚ) (rest : List ℚ),
      (Full.smooth up down capUp capDn (x0 :: rest)).head? =
        some (clipQ ((if 0 < x0 then up else down) * x0) 0 100)) ∧
    Full.smooth 0.45 0.12 12 10 [100] = [45] ∧ (12 : ℚ) < 45 := by
  refine ⟨fun up down capUp capDn x0 rest => rfl, ?_, by norm_num⟩
  show [Full.smoothStep0 0.45 0.12 100] = [45]
  norm_num [Full.smoothStep0, clipQ]

/-- C2 (amended): in the full build (crypto_buy_score_models_full.py) every
symbol is computed inside its own try/except, so (i) the batch always
emits one entry per symbol and never aborts, (ii) a symbol whose fetch
fails gets the all-null entry of timeline length for its close price, its
legacy score and every model series, and (iii) a symbol's entry depends
only on that symbol's own provider results, so one symbol's failure leaves
every other symbol's output unchanged.  The claim as frozen also covers
the plus-48h build, which has no per-symbol error handling and aborts the
whole batch on one failed fetch: see the counterexample. -/
theorem build_full_isolates_failures (M : Full.FullModels) (now : ℤ)
    (fetch fetch5 : String → Option (List Candle)) (ticker : String → Option ℚ)
    (sym : String) (hsym : sym ∈ SYMBOLS) :
    (Full.build M now fetch fetch5 ticker).length = SYMBOLS.length ∧
    (fetch sym = none →
      List.lookup sym (Full.build M now fetch fetch5 ticker) =
        some (Full.nullEntry (Full.timeline now Full.HOURS 15).length)) ∧
    (∀ (fetchB fetch5B : String → Option (List Candle))
        (tickerB : String → Option ℚ),
      fetchB sym = fetch sym → fetch5B sym = fetch5 sym →
      tickerB sym = ticker sym →
      List.lookup sym (Full.build M now fetchB fetch5B tickerB) =
        List.lookup sym (Full.build M now fetch fetch5 ticker)) := by
  refine ⟨by simp [Full.build], ?_, ?_⟩
  · intro hfail
    rw [build_full_lookup M now fetch fetch5 ticker sym hsym, hfail]
    rfl
  · intro fetchB fetch5B tickerB h1 h2 h3
    rw [build_full_lookup M now fetchB fetch5B tickerB sym hsym,
      build_full_lookup M now fetch fetch5 ticker sym hsym, h1, h2, h3]

/-- Witness for C2: with every provider call failing, the ETH/USDT entry of
the full build is the all-null entry of timeline length, by
build_full_isolates_failures. -/
theorem build_full_isolates_failures_witness :
    ("ETH/USDT" ∈ SYMBOLS) ∧
    List.lookup "ETH/USDT" (Full.build trivialFullModels 0 (fun _ => none)
        (fun _ => none) (fun _ => none)) =
      some (Full.nullEntry (Full.timeline 0 Full.HOURS 15).length) := by
  have hmem : "ETH/USDT" ∈ SYMBOLS := by simp [SYMBOLS]
  exact ⟨hmem, (build_full_isolates_failures trivialFullModels 0 (fun _ => none)
    (fun _ => none) (fun _ => none) "ETH/USDT" hmem).2.1 rfl⟩

/-- The fetch of the C2 counterexample: the BTC/USDT call raises while the
other two symbols have data. -/
def btcFailFetch : String → Option (List Candle) :=
  fun s => if s = "BTC/USDT" then none else some [⟨0, 1, 1, 1, 1, some 1⟩]

/-- Counterexample for C2: the plus-48h build (also named by the claim) has
no per-symbol error handling: with the BTC/USDT fetch failing while
ETH/USDT and ONDO/USDT both return data, the whole batch raises (the
embedded build is none) instead of emitting an all-null BTC entry next to
the other two symbols. -/
theorem build_plus_aborts_on_failure :
    btcFailFetch "BTC/USDT" = none ∧
    btcFailFetch "ETH/USDT" = some [⟨0, 1, 1, 1, 1, some 1⟩] ∧
    btcFailFetch "ONDO/USDT" = some [⟨0, 1, 1, 1, 1, some 1⟩] ∧
    Plus.build trivialPlusModels btcFailFetch (fun _ => some []) = none := by
  refine ⟨by simp [btcFailFetch], by simp [btcFailFetch], by simp [btcFailFetch], ?_⟩
  simp [Plus.build, Plus.buildGo, SYMBOLS, btcFailFetch]

/-- C3 (amended): in the full build, every ScoreSeries placed into the
output (close, legacy score, and models M1 to M5, for every symbol) has
length exactly the MasterTimeline (labels) length, including the all-null
failure entries.  The claim as frozen also covers the plus-48h build,
where each series instead follows the length of that symbol's own fetched
frame while the labels come from the first symbol, so the invariant fails
when frames differ: see the counterexample. -/
theorem build_full_series_lengths (M : Full.FullModels) (now : ℤ)
    (fetch fetch5 : String → Option (List Candle)) (ticker : String → Option ℚ)
    (sym : String) (e : Full.SymbolEntry)
    (hmem : (sym, e) ∈ Full.build M now fetch fetch5 ticker) :
    e.close.length = (Full.timeline now Full.HOURS 15).length ∧
    e.score.length = (Full.timeline now Full.HOURS 15).length ∧
    e.scores.M1.length = (Full.timeline now Full.HOURS 15).length ∧
    e.scores.M2.length = (Full.timeline now Full.HOURS 15).length ∧
    e.scores.M3.length = (Full.timeline now Full.HOURS 15).length ∧
    e.scores.M4.length = (Full.timeline now Full.HOURS 15).length ∧
    e.scores.M5.length = (Full.timeline now Full.HOURS 15).length := by
  simp only [Full.build, List.mem_map] at hmem
  obtain ⟨s, _, heq⟩ := hmem
  obtain ⟨rfl, rfl⟩ := Prod.mk.injEq s _ sym e ▸ heq
  exact perSymbol_lengths M _ _ _ _

/-- Witness for C3: with every provider call failing, the BTC/USDT entry of
the full build is in the output and all its series have timeline length,
by build_full_series_lengths. -/
theorem build_full_series_lengths_witness :
    (("BTC/USDT", Full.perSymbol trivialFullModels (Full.timeline 0 Full.HOURS 15)
        none none none) ∈
      Full.build trivialFullModels 0 (fun _ => none) (fun _ => none) (fun _ => none)) ∧
    (Full.perSymbol trivialFullModels (Full.timeline 0 Full.HOURS 15)
        none none none).close.length = (Full.timeline 0 Full.HOURS 15).length := by
  have hmem : ("BTC/USDT", Full.perSymbol trivialFullModels
      (Full.timeline 0 Full.HOURS 15) none none none) ∈
      Full.build trivialFullModels 0 (fun _ => none) (fun _ => none) (fun _ => none) :=
    List.mem_map.mpr ⟨"BTC/USDT", by simp [SYMBOLS], rfl⟩
  exact ⟨hmem, (build_full_series_lengths trivialFullModels 0 (fun _ => none)
    (fun _ => none) (fun _ => none) "BTC/USDT" _ hmem).1⟩

/-- The fetch of the C3 counterexample: BTC/USDT returns two candles, the
other symbols one, so the labels (taken from the first frame) have length
2 while the later symbols' model series have length 1. -/
def unevenFetch : String → Option (List Candle) :=
  fun s =>
    if s = "BTC/USDT" then some [⟨0, 1, 1, 1, 1, some 1⟩, ⟨15, 2, 2, 2, 2, some 1⟩]
    else some [⟨0, 1, 1, 1, 1, some 1⟩]

/-- Counterexample for C3: in the plus-48h build (also named by the claim)
the labels come from the first symbol's frame (length 2 here) while the
M1 series of ETH/USDT has the length of its own one-candle frame, so a
returned ScoreSeries does NOT have MasterTimeline length. -/
theorem build_plus_length_mismatch :
    ((Plus.build trivialPlusModels unevenFetch (fun _ => some [])).map
      (fun o => o.labels.length)) = some 2 ∧
    ((Plus.build trivialPlusModels unevenFetch (fun _ => some [])).bind
      (fun o => (List.lookup "ETH/USDT" o.models).map (fun sc => sc.M1.length))) =
      some 1 ∧
    (2 : ℕ) ≠ 1 := by
  refine ⟨?_, ?_, by norm_num⟩
  · simp [Plus.build, Plus.buildGo, unevenFetch, trivialPlusModels, SYMBOLS]
  · simp [Plus.build, Plus.buildGo, unevenFetch, trivialPlusModels, SYMBOLS,
      List.lookup, Plus.m1_baseline]

/-- C7: for every candle sequence whose close is strictly increasing (the
scenario fixes 260 candles with open = high = low = close and constant
volume; m1_baseline reads only the close column, so the theorem quantifies
over any strictly increasing close series), the Baseline model m1_baseline
scores 0 at every row: the close is the maximum of every full Bollinger
window, so it strictly exceeds the window mean and never touches the lower
band mid - 2*std, and on warm-up rows the NaN band comparison is False. -/
theorem m1_baseline_zero_on_rising (close : List ℚ)
    (hmono : List.Chain' (· < ·) close) :
    Plus.m1_baseline close = List.replicate close.length 0 := by
  have hpw : close.Pairwise (· < ·) := List.chain'_iff_pairwise.mp hmono
  rw [List.eq_replicate_iff]
  constructor
  · simp [Plus.m1_baseline]
  · intro b hb
    rw [Plus.m1_baseline] at hb
    simp only [List.mem_map, List.mem_range] at hb
    obtain ⟨i, _, rfl⟩ := hb
    simp only [bbTouch_false_of_mono hpw i, Bool.and_false, Bool.false_and,
      Bool.false_eq_true, if_false]

/-- Witness for C7: the strictly increasing close series 0, 1, ..., 259 of
length 260 scores 0 at every row through m1_baseline_zero_on_rising. -/
theorem m1_baseline_zero_on_rising_witness :
    Plus.m1_baseline (List.map (fun k : ℕ => (k : ℚ)) (List.range 260)) =
      List.replicate 260 0 := by
  have h := m1_baseline_zero_on_rising (List.map (fun k : ℕ => (k : ℚ)) (List.range 260))
    (by
      rw [List.chain'_map]
      exact ((List.pairwise_lt_range 260).chain').imp (fun a b hab => by exact_mod_cast hab))
  have hl : (List.map (fun k : ℕ => (k : ℚ)) (List.range 260)).length = 260 := by
    rw [List.length_map, List.length_range]
  rw [hl] at h
  exact h

/-- C1 (amended): in the plus-48h aligner collapse_fast_to_main, every
master bucket boundary t receives the arithmetic mean of the last K = 3
finer-resolution samples with timestamp at most t: the samples averaged are
a suffix sel of the chronological ts-at-most-t samples with
length = min 3 (their count) - so all of K when at least K exist, the
available ones otherwise - every other qualifying sample has a timestamp at
most every selected one (sel are the most recent), and the bucket is null
exactly when no sample qualifies.  In particular with 9 samples at or
before a boundary the bucket is the mean of the 3 most recent.  The claim
as frozen asserts this for every cross-resolution alignment of the
repository; the full build aligns its 5-minute lead model with bin_to_15m
instead, which violates the rule (see the counterexample), so the claim
holds for collapse_fast_to_main only. -/
theorem collapse_lastK_mean (fast : List (ℤ × ℚ)) (labels : List ℤ)
    (hsort : fast.Pairwise (fun a b => a.1 ≤ b.1)) (j : ℕ) (t : ℤ)
    (hj : labels[j]? = some t) :
    ∃ pre sel, fast.filter (fun p => decide (p.1 ≤ t)) = pre ++ sel ∧
      sel.length = min 3 (fast.filter (fun p => decide (p.1 ≤ t))).length ∧
      (∀ a ∈ pre, ∀ b ∈ sel, a.1 ≤ b.1) ∧
      (Plus.collapse_fast_to_main fast labels)[j]? =
        some (if sel.isEmpty then none else some (meanQ (sel.map (·.2)))) := by
  set f := fast.filter (fun p => decide (p.1 ≤ t)) with hf
  refine ⟨f.take (f.length - 3), f.drop (f.length - 3),
    (List.take_append_drop _ _).symm, ?_, ?_, ?_⟩
  · rw [List.length_drop]
    omega
  · have hpw : f.Pairwise (fun a b => a.1 ≤ b.1) := hsort.filter _
    have hsplit : List.Pairwise (fun a b : ℤ × ℚ => a.1 ≤ b.1)
        (f.take (f.length - 3) ++ f.drop (f.length - 3)) := by
      rw [List.take_append_drop]
      exact hpw
    exact (List.pairwise_append.mp hsplit).2.2
  · rw [Plus.collapse_fast_to_main, List.getElem?_map, hj]
    rfl

/-- Witness for C1: a sorted finer series of 9 samples all at or before the
boundary 100; the bucket value is the mean of the 3 most recent samples
(values 7, 8, 9), namely 8. -/
theorem collapse_lastK_mean_witness :
    (∃ pre sel,
      ([((10 : ℤ), (1 : ℚ)), (20, 2), (30, 3), (40, 4), (50, 5), (60, 6), (70, 7),
          (80, 8), (90, 9)].filter (fun p => decide (p.1 ≤ 100))) = pre ++ sel ∧
      sel.length = min 3 (([((10 : ℤ), (1 : ℚ)), (20, 2), (30, 3), (40, 4), (50, 5),
          (60, 6), (70, 7), (80, 8), (90, 9)].filter (fun p => decide (p.1 ≤ 100))).length) ∧
      (∀ a ∈ pre, ∀ b ∈ sel, a.1 ≤ b.1) ∧
      (Plus.collapse_fast_to_main [((10 : ℤ), (1 : ℚ)), (20, 2), (30, 3), (40, 4),
          (50, 5), (60, 6), (70, 7), (80, 8), (90, 9)] [100])[0]? =
        some (if sel.isEmpty then none else some (meanQ (sel.map (·.2))))) ∧
    Plus.collapse_fast_to_main [((10 : ℤ), (1 : ℚ)), (20, 2), (30, 3), (40, 4),
        (50, 5), (60, 6), (70, 7), (80, 8), (90, 9)] [100] = [some 8] := by
  refine ⟨collapse_lastK_mean _ [100] (by decide) 0 100 rfl, ?_⟩
  norm_num [Plus.collapse_fast_to_main, Plus.lastN, meanQ]

/-- Counterexample for C1: bin_to_15m is the cross-resolution alignment the
full build uses for its 5-minute lead model, and it does not assign the
last-3 mean: with finer samples at minutes 15, 20, 25 carrying values
1, 2, 3 and the single master label 15, it keeps the bucket MAXIMUM of all
samples flooring into the bucket (3, even though the samples at 20 and 25
lie past the boundary), while the mean of the last 3 samples with
timestamp at most the boundary is 1 (only the sample at 15 qualifies), as
collapse_fast_to_main computes. -/
theorem bin_to_15m_not_lastK_mean :
    Full.bin_to_15m [15, 20, 25] [(1 : ℚ), 2, 3] [15] = [some 3] ∧
    Plus.collapse_fast_to_main [((15 : ℤ), (1 : ℚ)), (20, 2), (25, 3)] [15] = [some 1] ∧
    ([some (3 : ℚ)] : List (Option ℚ)) ≠ [some 1] := by
  refine ⟨by decide, ?_, by decide⟩
  norm_num [Plus.collapse_fast_to_main, Plus.lastN, meanQ]

/-- C5: smooth maintains a running value starting at 0, and for each sample
x computes rate = up_rate if x > prev else down_rate, then
new_prev = prev + rate*(x - prev), then clips new_prev to
[previous_output - cap_down, previous_output + cap_up] (where a previous
output exists, i.e. from the second sample on; the running value equals the
previous output there), then clips to [0, 100]; and the computation is
deterministic given the series and parameters: a list satisfies this
recurrence if and only if it IS the smooth output, so the recurrence
determines the result uniquely. -/
theorem smooth_characterization (up down capUp capDn : ℚ) (v out : List ℚ) :
    out = Full.smooth up down capUp capDn v ↔
      (out.length = v.length ∧
       out[0]? = (v[0]?).map (Full.smoothStep0 up down) ∧
       ∀ (i : ℕ) (p x : ℚ), out[i]? = some p → v[i + 1]? = some x →
         out[i + 1]? = some (Full.smoothStep up down capUp capDn p x)) := by
  constructor
  · rintro rfl
    exact ⟨smooth_length up down capUp capDn v, smooth_head up down capUp capDn v,
      fun i p x hp hx => smooth_step up down capUp capDn v i p x hp hx⟩
  · rintro ⟨hlen, hhead, hstep⟩
    apply List.ext_getElem?
    intro n
    induction n with
    | zero => rw [hhead, smooth_head]
    | succ j ihj =>
      by_cases hj : j + 1 < v.length
      · obtain ⟨x, hx⟩ : ∃ x, v[j + 1]? = some x :=
          ⟨_, List.getElem?_eq_getElem hj⟩
        obtain ⟨p, hp⟩ : ∃ p, out[j]? = some p :=
          ⟨_, List.getElem?_eq_getElem (by omega : j < out.length)⟩
        have hp2 : (Full.smooth up down capUp capDn v)[j]? = some p := by
          rw [← ihj]
          exact hp
        rw [hstep j p x hp hx, smooth_step up down capUp capDn v j p x hp2 hx]
      · have h1 : out.length ≤ j + 1 := by omega
        have h2 : (Full.smooth up down capUp capDn v).length ≤ j + 1 := by
          rw [smooth_length]
          omega
        rw [List.getElem?_eq_none h1, List.getElem?_eq_none h2]

/-- C8: for every strictly increasing price series of length at least 30,
every defined RSI(14) value is strictly below 100, and for every strictly
decreasing series every RSI(14) value is at least 0, for the rsi of
crypto_buy_score_models_plus_48h.py (whose row 0 is NaN, hence the
Option-valued membership) and the rsi of crypto_buy_score.py alike; the
epsilon-guarded ratio of the gain and loss EMAs keeps RSI within these
bounds (indeed for every input series, monotone or not). -/
theorem rsi14_bounds (xs : List ℚ) (hlen : 30 ≤ xs.length) :
    (List.Chain' (· < ·) xs →
      (∀ v : ℚ, some v ∈ Plus.rsi 14 xs → v < 100) ∧
      ∀ v ∈ BuyScore.rsi 14 xs, v < 100) ∧
    (List.Chain' (· > ·) xs →
      (∀ v : ℚ, some v ∈ Plus.rsi 14 xs → 0 ≤ v) ∧
      ∀ v ∈ BuyScore.rsi 14 xs, 0 ≤ v) := by
  constructor
  · intro _
    exact ⟨fun v hv => (plus_rsi_mem_bounds 14 (by norm_num) xs v hv).2,
      fun v hv => (buyscore_rsi_mem_bounds 14 (by norm_num) xs v hv).2⟩
  · intro _
    exact ⟨fun v hv => (plus_rsi_mem_bounds 14 (by norm_num) xs v hv).1,
      fun v hv => (buyscore_rsi_mem_bounds 14 (by norm_num) xs v hv).1⟩

/-- Witness for C8: the strictly increasing series 0..29 and the strictly
decreasing series 30..1, both of length 30, through rsi14_bounds. -/
theorem rsi14_bounds_witness :
    (∀ v : ℚ, some v ∈ Plus.rsi 14 (List.map (fun k : ℕ => (k : ℚ)) (List.range 30)) →
      v < 100) ∧
    (∀ v : ℚ, some v ∈ Plus.rsi 14 (List.map (fun k : ℕ => (30 : ℚ) - (k : ℚ)) (List.range 30)) →
      0 ≤ v) := by
  have hr : List.Chain' (· < ·) (List.range 30) := (List.pairwise_lt_range 30).chain'
  have hinc : List.Chain' (· < ·) (List.map (fun k : ℕ => (k : ℚ)) (List.range 30)) := by
    rw [List.chain'_map]
    exact hr.imp (fun a b h => by exact_mod_cast h)
  have hdec : List.Chain' (· > ·)
      (List.map (fun k : ℕ => (30 : ℚ) - (k : ℚ)) (List.range 30)) := by
    rw [List.chain'_map]
    refine hr.imp (fun a b h => ?_)
    have hab : (a : ℚ) < (b : ℚ) := by exact_mod_cast h
    show (30 : ℚ) - (a : ℚ) > (30 : ℚ) - (b : ℚ)
    linarith
  exact ⟨((rsi14_bounds (List.map (fun k : ℕ => (k : ℚ)) (List.range 30)) (by simp)).1 hinc).1,
    ((rsi14_bounds (List.map (fun k : ℕ => (30 : ℚ) - (k : ℚ)) (List.range 30))
      (by simp)).2 hdec).1⟩

/-- C4: for every finite input series with no bounds supplied, every output
value of scale01 lies within [0, 100] (the clip to [0, 1] scaled by 100,
including constant zero-variance input), and the epsilon in the denominator
makes the division total: the denominator hi - lo + eps is strictly
positive, because the 95th percentile is at least the 5th (quantileQ_mono),
so no division by zero, NaN or infinity can arise and the function never
raises. -/
theorem scale01_bounded_and_total (x : List ℚ) :
    (∀ v ∈ Plus.scale01 x none none, 0 ≤ v ∧ v ≤ 100) ∧
    0 < quantileQ x (19 / 20) - quantileQ x (1 / 20) + eps := by
  constructor
  · intro v hv
    simp only [Plus.scale01, Option.getD_none, List.mem_map] at hv
    obtain ⟨a, _, rfl⟩ := hv
    constructor
    · exact mul_nonneg (clipQ_nonneg _ _ zero_le_one) (by norm_num)
    · calc clipQ ((a - quantileQ x (1 / 20)) /
            (quantileQ x (19 / 20) - quantileQ x (1 / 20) + eps)) 0 1 * 100
          ≤ 1 * 100 := mul_le_mul_of_nonneg_right (clipQ_le _ _ _) (by norm_num)
        _ = 100 := one_mul 100
  · have hmono : quantileQ x (1 / 20) ≤ quantileQ x (19 / 20) :=
      quantileQ_mono x (by norm_num) (by norm_num) (by norm_num)
    have heps : 0 < eps := by norm_num [eps]
    linarith

/-- C6: the meta-ensemble m10_meta is exactly the per-bucket fixed-weight
sum 0.25*m2 + 0.10*m3 + 0.25*m4 + 0.20*m6 + 0.20*m8 (specMetaBlend, written
bucket by bucket from the spec), followed by the short-window EMA of section
4.1 with span 3 (ema, whose first output is its first input - not the
asymmetric smoother), followed by a clip to [0, 100]. -/
theorem m10_meta_is_blend_ema_clip (m2 m3 m4 m6 m8 : List ℚ) :
    Plus.m10_meta m2 m3 m4 m6 m8 =
      (ema 3 (specMetaBlend m2 m3 m4 m6 m8)).map (fun y => clipQ y 0 100) := by
  show (ema 3 (metaZip m2 m3 m4 m6 m8)).map (fun y => clipQ y 0 100) = _
  rw [metaZip_eq_specMetaBlend]
